import Mathlib

/-!
Verification development for the `ont_as_analysis` tool (`src/main.rs`).

The program is a one-file Rust utility: a CSV loader (`parse_csv`) that
extracts six numeric columns per data row and sorts the records by time,
a five-panel renderer (`plot_multi_series`) whose axis-bound computation we
embed, and an argument-checking entry point (`main`).

Modelling conventions:
* `f64` values are modelled exactly by the type `F`: `nan`, the two
  infinities, and finite values carried as rational numbers (`mkRat` over
  integer mantissas, so every definition evaluates in the kernel).  The
  claims under study depend only on parse success/failure, NaN/infinity
  behaviour and value ordering, none of which involve f64 rounding.
* `rdr.records()` of the `csv` crate yields the data rows (the header row
  is consumed implicitly); the loader is therefore embedded as a function
  on the list of data rows, each row a list of field strings.
* Rust panics (`unwrap` on `None` / on a failed `partial_cmp`) are embedded
  as explicit error values (`LoadError.sortPanic`, `RenderPanic.unwrapNone`)
  so that control flow stays total and inspectable.
* `slice::sort_by` is a stable comparison sort whose comparator here is
  `|a, b| a.time.partial_cmp(&b.time).unwrap()`.  It is embedded as a
  stable insertion sort in an error monad: on NaN-free keys every stable
  sort produces the same output, and for two or more elements every
  comparison sort invokes the comparator on every element at least once,
  so the panic behaviour on NaN keys coincides as well.
-/

namespace OntAs

/-- Decidable equality for `Except`, so that concrete runs of the embedded
functions can be checked by `decide`. -/
instance {ε α : Type} [DecidableEq ε] [DecidableEq α] : DecidableEq (Except ε α) := fun a b =>
  match a, b with
  | .ok x, .ok y =>
      if h : x = y then isTrue (by rw [h]) else isFalse (fun hc => by cases hc; exact h rfl)
  | .error e, .error f =>
      if h : e = f then isTrue (by rw [h]) else isFalse (fun hc => by cases hc; exact h rfl)
  | .ok _, .error _ => isFalse (fun hc => by cases hc)
  | .error _, .ok _ => isFalse (fun hc => by cases hc)

/-- Model of an `f64` value: NaN, the infinities, or an exact finite value. -/
inductive F where
  | nan : F
  | pinf : F
  | ninf : F
  | fin (q : ℚ) : F
deriving DecidableEq

/-- Test for NaN, as `f64::is_nan`. -/
def F.isNan : F → Bool
  | .nan => true
  | _ => false

/-- Model of `f64::partial_cmp`: `none` whenever either operand is NaN,
otherwise the total order with `-inf < finite < +inf`. -/
def F.pcmp : F → F → Option Ordering
  | .nan, _ => none
  | _, .nan => none
  | .pinf, .pinf => some .eq
  | .pinf, _ => some .gt
  | .ninf, .ninf => some .eq
  | .ninf, _ => some .lt
  | .fin _, .pinf => some .lt
  | .fin _, .ninf => some .gt
  | .fin a, .fin b =>
      some (if a < b then Ordering.lt else if b < a then Ordering.gt else Ordering.eq)

/-- The `<=` relation induced by `partial_cmp`: true when the comparison is
defined and is `lt` or `eq`.  False whenever either side is NaN. -/
def F.le (a b : F) : Bool :=
  match F.pcmp a b with
  | some Ordering.lt => true
  | some Ordering.eq => true
  | _ => false

/-- Model of `f64::min`: NaN operands are ignored (if one argument is NaN
the other is returned). -/
def F.fmin (a b : F) : F :=
  if a.isNan then b else if b.isNan then a else if F.le a b then a else b

/-- Model of `f64::max`: NaN operands are ignored. -/
def F.fmax (a b : F) : F :=
  if a.isNan then b else if b.isNan then a else if F.le b a then a else b

/-- Strip an optional leading sign, returning whether it was `-`. -/
def splitSign : List Char → Bool × List Char
  | '+' :: rest => (false, rest)
  | '-' :: rest => (true, rest)
  | l => (false, l)

/-- Take the longest prefix of ASCII digits. -/
def takeDigits : List Char → List Char × List Char
  | [] => ([], [])
  | c :: rest =>
      if c.isDigit then
        let p := takeDigits rest
        (c :: p.1, p.2)
      else ([], c :: rest)

/-- Numeric value of a digit string. -/
def digitsVal (l : List Char) : ℕ :=
  l.foldl (fun acc c => 10 * acc + (c.toNat - 48)) 0

/-- Finish parsing a decimal literal: integer digits `ip`, fraction digits
`fp`, and the rest of the input, which must be empty or a valid exponent.
The value is assembled as a single `mkRat`. -/
def finishNumber (ip fp : List Char) (r : List Char) : Option ℚ :=
  let m : ℕ := digitsVal ip * 10 ^ fp.length + digitsVal fp
  match r with
  | [] => some (mkRat m (10 ^ fp.length))
  | c :: r2 =>
      if c = 'e' ∨ c = 'E' then
        let se := splitSign r2
        let pe := takeDigits se.2
        if pe.1.isEmpty ∨ ¬ pe.2.isEmpty then none
        else if se.1 then some (mkRat m (10 ^ fp.length * 10 ^ digitsVal pe.1))
        else some (mkRat (m * 10 ^ digitsVal pe.1) (10 ^ fp.length))
      else none

/-- Parse a decimal number (after the sign): `digits`, `digits.digits`,
`.digits` or `digits.`, with an optional exponent; at least one digit must
be present in the mantissa. -/
def parseNumber (l : List Char) : Option ℚ :=
  let p := takeDigits l
  match p.2 with
  | '.' :: r2 =>
      let q := takeDigits r2
      if p.1.isEmpty ∧ q.1.isEmpty then none
      else finishNumber p.1 q.1 q.2
  | r1 =>
      if p.1.isEmpty then none else finishNumber p.1 [] r1

/-- Lower-case the ASCII letters that occur in the special float literals
`inf`, `infinity`, `nan` (Rust matches these ASCII-case-insensitively). -/
def lowerAscii (c : Char) : Char :=
  if c = 'I' then 'i' else if c = 'N' then 'n' else if c = 'F' then 'f'
  else if c = 'T' then 't' else if c = 'Y' then 'y' else if c = 'A' then 'a' else c

/-- Model of Rust `str::parse::<f64>()` (`f64::from_str`): an optional sign
followed by `inf`, `infinity` or `nan` (ASCII-case-insensitive), or a
decimal literal with optional exponent.  Finite values are kept exact. -/
def parseF (s : String) : Option F :=
  let sg := splitSign s.toList
  let low := sg.2.map lowerAscii
  if low = ['i', 'n', 'f'] ∨ low = ['i', 'n', 'f', 'i', 'n', 'i', 't', 'y'] then
    some (if sg.1 then F.ninf else F.pinf)
  else if low = ['n', 'a', 'n'] then some F.nan
  else
    match parseNumber sg.2 with
    | none => none
    | some q => some (F.fin (if sg.1 then -q else q))

/-- One row of the CSV input (struct `Record` in `main.rs`). -/
structure Record where
  time : F
  samples : F
  bases : F
  mean_qscore : F
  time_to_package_and_send : F
  time_in_basecaller : F
deriving DecidableEq

/-- Errors of the loader.  `missingField` carries the message given to
`ok_or`; `parseError` models a `ParseFloatError`; `sortPanic` models the
panic of `partial_cmp(..).unwrap()` inside `sort_by`. -/
inductive LoadError where
  | missingField (msg : String) : LoadError
  | parseError : LoadError
  | sortPanic : LoadError
deriving DecidableEq

/-- Embeds `record.get(i).ok_or(msg)?.parse()?`. -/
def getParse (row : List String) (i : ℕ) (msg : String) : Except LoadError F :=
  match row[i]? with
  | none => .error (.missingField msg)
  | some s =>
      match parseF s with
      | none => .error .parseError
      | some v => .ok v

/-- Embeds the construction of one `Record` from a CSV row (fields are
evaluated in the order they are written in the struct literal). -/
def parseRow (row : List String) : Except LoadError Record := do
  let time ← getParse row 2 "Missing batch_time"
  let samples ← getParse row 3 "Missing samples"
  let bases ← getParse row 4 "Missing bases"
  let mean_qscore ← getParse row 6 "Missing mean_qscore"
  let ttpas ← getParse row 7 "Missing time_to_package_and_send"
  let tib ← getParse row 8 "Missing time_in_basecaller"
  return ⟨time, samples, bases, mean_qscore, ttpas, tib⟩

/-- Embeds the record-reading loop of `parse_csv` applied to the rows as the
csv reader delivers them: rows are parsed in file order and the first failure
aborts the load.  The reader's own row-width check (`let record = result?;`,
which rejects a row whose field count differs from the header's before any
field is accessed) is modelled separately by `readRows`; rows delivered past
that check all have the header's width. -/
def parseRows : List (List String) → Except LoadError (List Record)
  | [] => .ok []
  | row :: rest =>
      match parseRow row with
      | .error e => .error e
      | .ok r =>
          match parseRows rest with
          | .error e => .error e
          | .ok rs => .ok (r :: rs)

/-- Insert `x` into the sorted list, scanning from the left and placing `x`
before the first element strictly greater than it (so after all elements
that compare `lt` or `eq`, which is what makes the sort stable).  Each scan
step invokes the comparator `partial_cmp(..).unwrap()`, which panics
(`sortPanic`) when the comparison is undefined. -/
def insertM {α : Type} (k : α → F) (x : α) : List α → Except LoadError (List α)
  | [] => .ok [x]
  | y :: ys =>
      match F.pcmp (k y) (k x) with
      | none => .error .sortPanic
      | some Ordering.gt => .ok (x :: y :: ys)
      | some _ =>
          match insertM k x ys with
          | .error e => .error e
          | .ok t => .ok (y :: t)

/-- Fold of `insertM` over the input, accumulating the sorted prefix. -/
def sortAux {α : Type} (k : α → F) : List α → List α → Except LoadError (List α)
  | acc, [] => .ok acc
  | acc, x :: xs =>
      match insertM k x acc with
      | .error e => .error e
      | .ok acc2 => sortAux k acc2 xs

/-- Embeds `data.sort_by(|a, b| a.time.partial_cmp(&b.time).unwrap())` as a
stable sort on the key `k` in an error monad (see the module docstring for
the equivalence argument). -/
def sort_by {α : Type} (k : α → F) (l : List α) : Except LoadError (List α) :=
  sortAux k [] l

/-- Embeds `parse_csv` downstream of the csv reader: parse every delivered
data row, then sort by `time`.  The full pipeline including the reader's
width check is `parse_csv_file`. -/
def parse_csv (rows : List (List String)) : Except LoadError (List Record) :=
  match parseRows rows with
  | .error e => .error e
  | .ok data => sort_by Record.time data

/-- Errors of the full loading pipeline.  `unequalLengths` models the csv
crate's `UnequalLengths` error: the default (non-flexible) reader rejects,
at `let record = result?;`, any data row whose field count differs from the
header's, before `record.get` runs.  `load` wraps the errors of the
field-extraction and sort stage. -/
inductive ReadError where
  | unequalLengths : ReadError
  | load (e : LoadError) : ReadError
deriving DecidableEq

/-- Embeds the reading loop of `parse_csv` including `let record = result?;`:
each row in file order is first checked against the header's field count
(`headerLen`, the csv crate's non-flexible width check), and only then does
the `get`/`ok_or`/`parse` chain build the `Record`. -/
def readRows (headerLen : ℕ) : List (List String) → Except ReadError (List Record)
  | [] => .ok []
  | row :: rest =>
      if row.length ≠ headerLen then .error .unequalLengths
      else
        match parseRow row with
        | .error e => .error (.load e)
        | .ok r =>
            match readRows headerLen rest with
            | .error e => .error e
            | .ok rs => .ok (r :: rs)

/-- Embeds `parse_csv` end to end for a file whose header row has
`headerLen` fields: read and parse every data row through the reader's
width check, then sort chronologically (a comparator panic surfaces as
`.load .sortPanic`). -/
def parse_csv_file (headerLen : ℕ) (rows : List (List String)) :
    Except ReadError (List Record) :=
  match readRows headerLen rows with
  | .error e => .error e
  | .ok data =>
      match sort_by Record.time data with
      | .error e => .error (.load e)
      | .ok s => .ok s

/-- The renderer's panic on `data.first().unwrap()` / `data.last().unwrap()`. -/
inductive RenderPanic where
  | unwrapNone : RenderPanic
deriving DecidableEq

/-- Axis bounds built for one panel by `build_cartesian_2d(min_time..max_time,
min_val..max_val)`. -/
structure Axes where
  xlo : F
  xhi : F
  ylo : F
  yhi : F
deriving DecidableEq

/-- Embeds `data.first().unwrap().time` (a panic on an empty slice). -/
def firstTime (data : List Record) : Except RenderPanic F :=
  match data.head? with
  | none => .error .unwrapNone
  | some r => .ok r.time

/-- Embeds `data.last().unwrap().time` (a panic on an empty slice). -/
def lastTime (data : List Record) : Except RenderPanic F :=
  match data.getLast? with
  | none => .error .unwrapNone
  | some r => .ok r.time

/-- Embeds `data.iter().map(accessor).fold(f64::INFINITY, f64::min)`. -/
def minVal (acc : Record → F) (data : List Record) : F :=
  (data.map acc).foldl F.fmin F.pinf

/-- Embeds `data.iter().map(accessor).fold(f64::NEG_INFINITY, f64::max)`. -/
def maxVal (acc : Record → F) (data : List Record) : F :=
  (data.map acc).foldl F.fmax F.ninf

/-- The fixed field list of `plot_multi_series`: display title and accessor,
in panel order. -/
def fields : List (String × (Record → F)) :=
  [("Samples", fun r => r.samples),
   ("Bases", fun r => r.bases),
   ("Mean Q-score", fun r => r.mean_qscore),
   ("Time to Package", fun r => r.time_to_package_and_send),
   ("Time in Basecaller", fun r => r.time_in_basecaller)]

/-- Axis bounds computed for one panel: first/last time for x, the min/max
folds for y. -/
def panelAxes (acc : Record → F) (data : List Record) : Except RenderPanic Axes :=
  match firstTime data with
  | .error e => .error e
  | .ok lo =>
      match lastTime data with
      | .error e => .error e
      | .ok hi => .ok ⟨lo, hi, minVal acc data, maxVal acc data⟩

/-- Sequence a fallible function over a list, stopping at the first error
(the renderer's panel loop aborts at the first panic). -/
def mapE {α β ε : Type} (g : α → Except ε β) : List α → Except ε (List β)
  | [] => .ok []
  | a :: as2 =>
      match g a with
      | .error e => .error e
      | .ok b =>
          match mapE g as2 with
          | .error e => .error e
          | .ok bs => .ok (b :: bs)

/-- Embeds the axis-bound computation of `plot_multi_series`: for each of
the five panels in order, compute the panel's axis ranges. -/
def plotAxes (data : List Record) : Except RenderPanic (List Axes) :=
  mapE (fun f => panelAxes f.2 data) fields

/-- Decidable check that adjacent keys are ascending (`k l[i] <= k l[i+1]`). -/
def sortedKeyB {α : Type} (k : α → F) : List α → Bool
  | [] => true
  | [_] => true
  | a :: b :: t => F.le (k a) (k b) && sortedKeyB k (b :: t)

/-- Records in ascending `time` order, adjacent-pairwise. -/
def sortedByTimeB (l : List Record) : Bool :=
  sortedKeyB Record.time l

/-- Decidable "v is the minimum of l": `v` occurs in `l` and is `<=` all of `l`. -/
def isMinOf (v : F) (l : List F) : Bool :=
  l.any (fun w => decide (w = v)) && l.all (fun w => F.le v w)

/-- Decidable "v is the maximum of l". -/
def isMaxOf (v : F) (l : List F) : Bool :=
  l.any (fun w => decide (w = v)) && l.all (fun w => F.le w v)

/-- No component of the record is NaN. -/
def recNoNan (r : Record) : Bool :=
  !r.time.isNan && !r.samples.isNan && !r.bases.isNan && !r.mean_qscore.isNan &&
    !r.time_to_package_and_send.isNan && !r.time_in_basecaller.isNan

/-- The `ok_or` message of the first consumed column index that lies beyond
a row of the given length (the loader reads indices 2,3,4,6,7,8 in order). -/
def missingName (len : ℕ) : String :=
  if len ≤ 2 then "Missing batch_time"
  else if len = 3 then "Missing samples"
  else if len = 4 then "Missing bases"
  else if len ≤ 6 then "Missing mean_qscore"
  else if len = 7 then "Missing time_to_package_and_send"
  else "Missing time_in_basecaller"

/-- Outcome of the entry point's argument check. -/
inductive CliOutcome where
  | usageExit (stderrLine : String) (exitCode : ℕ) : CliOutcome
  | runPipeline (inputPath outputPath : String) : CliOutcome
deriving DecidableEq

/-- Embeds the argument handling of `main`: `args` is the full argv
(program name included, as `env::args` yields it).  Any count other than 3
prints the usage line to stderr and exits with code 1 before the loader or
renderer runs; otherwise the pipeline runs on `args[1]`, `args[2]`. -/
def mainArgs (args : List String) : CliOutcome :=
  if args.length ≠ 3 then
    .usageExit ("Usage: " ++ args.headD "" ++ " <input_csv> <output_png>") 1
  else
    .runPipeline (args.getD 1 "") (args.getD 2 "")

/-! ### Concrete inputs used to exercise the embedded functions -/

/-- A well-formed data row with the given time and samples columns and all
other metric columns `1`. -/
def sampleRow (t s : String) : List String :=
  ["a", "b", t, s, "1", "c", "1", "1", "1"]

/-- The record such a row parses to. -/
def sampleRec (t s : F) : Record :=
  ⟨t, s, F.fin 1, F.fin 1, F.fin 1, F.fin 1⟩

/-- The end-to-end dataset of the spec: times 10, 5, 20 with samples
100, 200, 150. -/
def rowsEndToEnd : List (List String) :=
  [sampleRow "10.0" "100", sampleRow "5.0" "200", sampleRow "20.0" "150"]

/-- The records of `rowsEndToEnd` in file order. -/
def recsEndToEnd : List Record :=
  [sampleRec (F.fin 10) (F.fin 100), sampleRec (F.fin 5) (F.fin 200),
   sampleRec (F.fin 20) (F.fin 150)]

/-- The records of `rowsEndToEnd` in ascending time order. -/
def recsSorted : List Record :=
  [sampleRec (F.fin 5) (F.fin 200), sampleRec (F.fin 10) (F.fin 100),
   sampleRec (F.fin 20) (F.fin 150)]

/-- A record sequence that is not sorted by time (times 5 then 3). -/
def unsortedData : List Record :=
  [sampleRec (F.fin 5) (F.fin 1), sampleRec (F.fin 3) (F.fin 1)]

/-- The same two records in ascending time order. -/
def sortedData : List Record :=
  [sampleRec (F.fin 3) (F.fin 1), sampleRec (F.fin 5) (F.fin 1)]

/-- A one-row dataset whose time column is the literal `nan`. -/
def rowsNanSingle : List (List String) :=
  [["q", "w", "nan", "7", "8", "e", "9", "10", "11"]]

/-- A two-row dataset whose first time column is `NaN`. -/
def rowsNanPair : List (List String) :=
  [sampleRow "NaN" "1", sampleRow "2" "1"]

/-- A one-row dataset with a NaN time and an infinite samples column. -/
def rowsNonFinite : List (List String) :=
  [["a", "b", "NaN", "inf", "2", "c", "3", "4", "5"]]

/-- A row with only 8 columns whose time column is not numeric. -/
def rowShortBad : List String :=
  ["a", "b", "abc", "1", "2", "c", "3", "4"]

/-- A dataset with a single 5-column row (columns 2..4 numeric). -/
def rowsShort : List (List String) :=
  [["a", "b", "1.5", "2", "3"]]

/-- A dataset with a full-width row whose time column is `abc`. -/
def rowsBadCol : List (List String) :=
  [["x", "y", "abc", "1", "2", "q", "3", "4", "5"]]

/-- A two-row dataset with times 7 and 2. -/
def rowsPair : List (List String) :=
  [sampleRow "7" "1", sampleRow "2" "2"]

/-- The field-mapping row of the spec (section 8). -/
def specRow5 : List String :=
  ["x", "y", "100.5", "42", "7", "q", "1.2", "0.3", "0.4"]

/-! ### Order lemmas for the partial order on `F` -/

theorem F.le_fin_iff {a b : ℚ} : F.le (.fin a) (.fin b) = true ↔ a ≤ b := by
  have hp : F.pcmp (.fin a) (.fin b) =
      some (if a < b then Ordering.lt else if b < a then Ordering.gt else Ordering.eq) := rfl
  unfold F.le
  rw [hp]
  split_ifs with h1 h2
  · simpa using h1.le
  · simpa using not_le.mpr h2
  · simpa using (le_antisymm (not_lt.mp h2) (not_lt.mp h1)).le

theorem F.le_not_nan {a b : F} (h : F.le a b = true) :
    a.isNan = false ∧ b.isNan = false := by
  cases a <;> cases b <;> simp_all [F.le, F.pcmp, F.isNan]

theorem F.le_refl {a : F} (h : a.isNan = false) : F.le a a = true := by
  cases a with
  | nan => simp [F.isNan] at h
  | pinf => rfl
  | ninf => rfl
  | fin q => exact F.le_fin_iff.mpr le_rfl

theorem F.le_trans {a b c : F} (h1 : F.le a b = true) (h2 : F.le b c = true) :
    F.le a c = true := by
  cases a <;> cases b <;> cases c <;>
    first
    | exact F.le_fin_iff.mpr ((F.le_fin_iff.mp h1).trans (F.le_fin_iff.mp h2))
    | rfl
    | simp_all [F.le, F.pcmp]

theorem F.le_total {a b : F} (ha : a.isNan = false) (hb : b.isNan = false) :
    F.le a b = true ∨ F.le b a = true := by
  cases a <;> cases b <;>
    first
    | (exact Or.inl rfl)
    | (exact Or.inr rfl)
    | (rename_i qa qb
       rcases le_or_lt qa qb with h | h
       · exact Or.inl (F.le_fin_iff.mpr h)
       · exact Or.inr (F.le_fin_iff.mpr h.le))
    | simp_all [F.isNan]

theorem F.pcmp_some_not_nan {a b : F} {c : Ordering} (h : F.pcmp a b = some c) :
    a.isNan = false ∧ b.isNan = false := by
  cases a <;> cases b <;> simp_all [F.pcmp, F.isNan]

theorem F.le_of_pcmp_not_gt {a b : F} {c : Ordering} (h : F.pcmp a b = some c)
    (hc : c ≠ Ordering.gt) : F.le a b = true := by
  unfold F.le
  rw [h]
  cases c <;> simp_all

theorem F.le_of_pcmp_gt {a b : F} (h : F.pcmp a b = some Ordering.gt) :
    F.le b a = true := by
  cases a <;> cases b <;> simp_all [F.le, F.pcmp]

theorem F.not_le_of_pcmp_gt {a b : F} (h : F.pcmp a b = some Ordering.gt) :
    F.le a b = false := by
  unfold F.le
  rw [h]

/-! ### Properties of the embedded stable sort -/

theorem insertM_perm {α : Type} {k : α → F} {x : α} :
    ∀ {s r : List α}, insertM k x s = .ok r → r.Perm (x :: s) := by
  intro s
  induction s with
  | nil =>
      intro r h
      simp only [insertM, Except.ok.injEq] at h
      subst h
      exact List.Perm.refl _
  | cons y ys ih =>
      intro r h
      simp only [insertM] at h
      rcases hc : F.pcmp (k y) (k x) with _ | c
      · rw [hc] at h; exact absurd h (by simp)
      · rw [hc] at h
        cases c with
        | gt =>
            simp only [Except.ok.injEq] at h
            subst h
            exact List.Perm.refl _
        | lt =>
            rcases hi : insertM k x ys with e | u
            · rw [hi] at h; exact absurd h (by simp)
            · rw [hi] at h
              simp only [Except.ok.injEq] at h
              subst h
              exact ((ih hi).cons y).trans (List.Perm.swap x y ys)
        | eq =>
            rcases hi : insertM k x ys with e | u
            · rw [hi] at h; exact absurd h (by simp)
            · rw [hi] at h
              simp only [Except.ok.injEq] at h
              subst h
              exact ((ih hi).cons y).trans (List.Perm.swap x y ys)

theorem insertM_error {α : Type} {k : α → F} {x : α} :
    ∀ {s : List α} {e : LoadError}, insertM k x s = .error e → e = .sortPanic := by
  intro s
  induction s with
  | nil => intro e h; simp [insertM] at h
  | cons y ys ih =>
      intro e h
      simp only [insertM] at h
      rcases hc : F.pcmp (k y) (k x) with _ | c
      · rw [hc] at h
        simp only [Except.error.injEq] at h
        exact h.symm
      · rw [hc] at h
        cases c with
        | gt => simp at h
        | lt =>
            rcases hi : insertM k x ys with e2 | u
            · rw [hi] at h
              simp only [Except.error.injEq] at h
              exact h ▸ ih hi
            · rw [hi] at h; simp at h
        | eq =>
            rcases hi : insertM k x ys with e2 | u
            · rw [hi] at h
              simp only [Except.error.injEq] at h
              exact h ▸ ih hi
            · rw [hi] at h; simp at h

theorem insertM_head {α : Type} {k : α → F} {x z : α} {zs t : List α}
    (h : insertM k x (z :: zs) = .ok t) :
    (∃ u, t = x :: u) ∨ ∃ u, t = z :: u := by
  simp only [insertM] at h
  rcases hc : F.pcmp (k z) (k x) with _ | c
  · rw [hc] at h; exact absurd h (by simp)
  · rw [hc] at h
    cases c with
    | gt =>
        simp only [Except.ok.injEq] at h
        exact Or.inl ⟨z :: zs, h.symm⟩
    | lt =>
        rcases hi : insertM k x zs with e | u
        · rw [hi] at h; exact absurd h (by simp)
        · rw [hi] at h
          simp only [Except.ok.injEq] at h
          exact Or.inr ⟨u, h.symm⟩
    | eq =>
        rcases hi : insertM k x zs with e | u
        · rw [hi] at h; exact absurd h (by simp)
        · rw [hi] at h
          simp only [Except.ok.injEq] at h
          exact Or.inr ⟨u, h.symm⟩

theorem insertM_sorted {α : Type} {k : α → F} {x : α} :
    ∀ {s r : List α}, sortedKeyB k s = true → insertM k x s = .ok r →
      sortedKeyB k r = true := by
  intro s
  induction s with
  | nil =>
      intro r hs h
      simp only [insertM, Except.ok.injEq] at h
      subst h
      rfl
  | cons y ys ih =>
      intro r hs h
      simp only [insertM] at h
      rcases hc : F.pcmp (k y) (k x) with _ | c
      · rw [hc] at h; exact absurd h (by simp)
      · rw [hc] at h
        cases c with
        | gt =>
            simp only [Except.ok.injEq] at h
            subst h
            simpa [sortedKeyB, Bool.and_eq_true] using ⟨F.le_of_pcmp_gt hc, hs⟩
        | lt =>
            rcases hi : insertM k x ys with e | u
            · rw [hi] at h; exact absurd h (by simp)
            · rw [hi] at h
              simp only [Except.ok.injEq] at h
              subst h
              have hyx : F.le (k y) (k x) = true := F.le_of_pcmp_not_gt hc (by simp)
              cases ys with
              | nil =>
                  simp only [insertM, Except.ok.injEq] at hi
                  subst hi
                  simpa [sortedKeyB] using hyx
              | cons z zs =>
                  have hpair : F.le (k y) (k z) = true ∧ sortedKeyB k (z :: zs) = true := by
                    simpa [sortedKeyB, Bool.and_eq_true] using hs
                  have hu : sortedKeyB k u = true := ih hpair.2 hi
                  rcases insertM_head hi with ⟨v, rfl⟩ | ⟨v, rfl⟩
                  · simpa [sortedKeyB, Bool.and_eq_true] using ⟨hyx, hu⟩
                  · simpa [sortedKeyB, Bool.and_eq_true] using ⟨hpair.1, hu⟩
        | eq =>
            rcases hi : insertM k x ys with e | u
            · rw [hi] at h; exact absurd h (by simp)
            · rw [hi] at h
              simp only [Except.ok.injEq] at h
              subst h
              have hyx : F.le (k y) (k x) = true := F.le_of_pcmp_not_gt hc (by simp)
              cases ys with
              | nil =>
                  simp only [insertM, Except.ok.injEq] at hi
                  subst hi
                  simpa [sortedKeyB] using hyx
              | cons z zs =>
                  have hpair : F.le (k y) (k z) = true ∧ sortedKeyB k (z :: zs) = true := by
                    simpa [sortedKeyB, Bool.and_eq_true] using hs
                  have hu : sortedKeyB k u = true := ih hpair.2 hi
                  rcases insertM_head hi with ⟨v, rfl⟩ | ⟨v, rfl⟩
                  · simpa [sortedKeyB, Bool.and_eq_true] using ⟨hyx, hu⟩
                  · simpa [sortedKeyB, Bool.and_eq_true] using ⟨hpair.1, hu⟩

theorem sorted_head_le_all {α : Type} {k : α → F} :
    ∀ {ys : List α} {y : α}, sortedKeyB k (y :: ys) = true →
      ∀ z ∈ ys, F.le (k y) (k z) = true := by
  intro ys
  induction ys with
  | nil => intro y _ z hz; simp at hz
  | cons b t ih =>
      intro y hs z hz
      have hpair : F.le (k y) (k b) = true ∧ sortedKeyB k (b :: t) = true := by
        simpa [sortedKeyB, Bool.and_eq_true] using hs
      rcases List.mem_cons.mp hz with rfl | hz2
      · exact hpair.1
      · exact F.le_trans hpair.1 (ih hpair.2 z hz2)

theorem insertM_filter {α : Type} {k : α → F} {x : α} (t : F) :
    ∀ {s r : List α}, sortedKeyB k s = true → insertM k x s = .ok r →
      r.filter (fun y => decide (k y = t)) =
        s.filter (fun y => decide (k y = t)) ++ if k x = t then [x] else [] := by
  intro s
  induction s with
  | nil =>
      intro r hs h
      simp only [insertM, Except.ok.injEq] at h
      subst h
      by_cases hx : k x = t <;> simp [hx, List.filter]
  | cons y ys ih =>
      intro r hs h
      simp only [insertM] at h
      rcases hc : F.pcmp (k y) (k x) with _ | c
      · rw [hc] at h; exact absurd h (by simp)
      · rw [hc] at h
        cases c with
        | gt =>
            simp only [Except.ok.injEq] at h
            subst h
            by_cases hx : k x = t
            · have hnone : ∀ z ∈ y :: ys, k z ≠ t := by
                intro z hz hzt
                have hyz : F.le (k y) (k z) = true := by
                  rcases List.mem_cons.mp hz with rfl | hz2
                  · exact F.le_refl (F.pcmp_some_not_nan hc).1
                  · exact sorted_head_le_all hs z hz2
                rw [hzt, ← hx] at hyz
                rw [F.not_le_of_pcmp_gt hc] at hyz
                exact Bool.false_ne_true hyz
              have hfe : (y :: ys).filter (fun z => decide (k z = t)) = [] := by
                apply List.filter_eq_nil_iff.mpr
                intro z hz
                simpa using hnone z hz
              rw [if_pos hx, List.filter_cons_of_pos (by simp [hx]), hfe]
              simp
            · rw [if_neg hx, List.filter_cons_of_neg (by simp [hx])]
              simp
        | lt =>
            rcases hi : insertM k x ys with e | u
            · rw [hi] at h; exact absurd h (by simp)
            · rw [hi] at h
              simp only [Except.ok.injEq] at h
              subst h
              have hys : sortedKeyB k ys = true := by
                cases ys with
                | nil => rfl
                | cons z zs =>
                    exact (by simpa [sortedKeyB, Bool.and_eq_true] using hs :
                      F.le (k y) (k z) = true ∧ sortedKeyB k (z :: zs) = true).2
              have hrec := ih hys hi
              by_cases hy : k y = t <;>
                simp [List.filter_cons, hy, hrec]
        | eq =>
            rcases hi : insertM k x ys with e | u
            · rw [hi] at h; exact absurd h (by simp)
            · rw [hi] at h
              simp only [Except.ok.injEq] at h
              subst h
              have hys : sortedKeyB k ys = true := by
                cases ys with
                | nil => rfl
                | cons z zs =>
                    exact (by simpa [sortedKeyB, Bool.and_eq_true] using hs :
                      F.le (k y) (k z) = true ∧ sortedKeyB k (z :: zs) = true).2
              have hrec := ih hys hi
              by_cases hy : k y = t <;>
                simp [List.filter_cons, hy, hrec]

theorem sortAux_error {α : Type} {k : α → F} :
    ∀ {l acc : List α} {e : LoadError}, sortAux k acc l = .error e → e = .sortPanic := by
  intro l
  induction l with
  | nil => intro acc e h; simp [sortAux] at h
  | cons x xs ih =>
      intro acc e h
      simp only [sortAux] at h
      rcases hi : insertM k x acc with e2 | acc2
      · rw [hi] at h
        simp only [Except.error.injEq] at h
        exact h ▸ insertM_error hi
      · rw [hi] at h
        exact ih h

theorem sortAux_ok {α : Type} {k : α → F} :
    ∀ {l acc s : List α}, sortedKeyB k acc = true → sortAux k acc l = .ok s →
      sortedKeyB k s = true ∧ s.Perm (acc ++ l) := by
  intro l
  induction l with
  | nil =>
      intro acc s hs h
      simp only [sortAux, Except.ok.injEq] at h
      subst h
      exact ⟨hs, by simp⟩
  | cons x xs ih =>
      intro acc s hs h
      simp only [sortAux] at h
      rcases hi : insertM k x acc with e | acc2
      · rw [hi] at h; exact absurd h (by simp)
      · rw [hi] at h
        obtain ⟨hsort, hperm⟩ := ih (insertM_sorted hs hi) h
        refine ⟨hsort, hperm.trans ?_⟩
        exact (((insertM_perm hi).append_right xs).trans List.perm_middle.symm)

theorem sortAux_filter {α : Type} {k : α → F} (t : F) :
    ∀ {l acc s : List α}, sortedKeyB k acc = true → sortAux k acc l = .ok s →
      s.filter (fun y => decide (k y = t)) =
        acc.filter (fun y => decide (k y = t)) ++ l.filter (fun y => decide (k y = t)) := by
  intro l
  induction l with
  | nil =>
      intro acc s hs h
      simp only [sortAux, Except.ok.injEq] at h
      subst h
      simp
  | cons x xs ih =>
      intro acc s hs h
      simp only [sortAux] at h
      rcases hi : insertM k x acc with e | acc2
      · rw [hi] at h; exact absurd h (by simp)
      · rw [hi] at h
        have hrec := ih (insertM_sorted hs hi) h
        rw [hrec, insertM_filter t hs hi]
        by_cases hx : k x = t <;> simp [List.filter_cons, hx]

theorem sortedKey_no_nan {α : Type} {k : α → F} :
    ∀ {l : List α}, sortedKeyB k l = true → 2 ≤ l.length →
      ∀ x ∈ l, (k x).isNan = false := by
  intro l
  induction l with
  | nil => intro _ _ x hx; simp at hx
  | cons a l ih =>
      intro hs hlen x hx
      cases l with
      | nil => simp at hlen
      | cons b t =>
          have hpair : F.le (k a) (k b) = true ∧ sortedKeyB k (b :: t) = true := by
            simpa [sortedKeyB, Bool.and_eq_true] using hs
          rcases List.mem_cons.mp hx with rfl | hx2
          · exact (F.le_not_nan hpair.1).1
          · cases t with
            | nil =>
                have hxb : x = b := by simpa using hx2
                subst hxb
                exact (F.le_not_nan hpair.1).2
            | cons c u =>
                exact ih hpair.2 (by simp) x hx2

theorem sort_by_ok {α : Type} {k : α → F} {l s : List α} (h : sort_by k l = .ok s) :
    sortedKeyB k s = true ∧ s.Perm l ∧
      ∀ t, s.filter (fun y => decide (k y = t)) = l.filter (fun y => decide (k y = t)) := by
  have h0 : sortAux k [] l = .ok s := h
  have hemp : sortedKeyB k ([] : List α) = true := rfl
  have h1 := sortAux_ok hemp h0
  have h2 := fun t => sortAux_filter t hemp h0
  exact ⟨h1.1, by simpa using h1.2, fun t => by simpa using h2 t⟩

theorem sort_by_error {α : Type} {k : α → F} {l : List α} {e : LoadError}
    (h : sort_by k l = .error e) : e = .sortPanic :=
  sortAux_error h

/-! ### Properties of the row parser -/

theorem except_bind_ok {ε α β : Type} (a : α) (f : α → Except ε β) :
    (Except.ok a : Except ε α) >>= f = f a := rfl

theorem except_bind_error {ε α β : Type} (e : ε) (f : α → Except ε β) :
    (Except.error e : Except ε α) >>= f = .error e := rfl

theorem getParse_present {row : List String} {i : ℕ} (msg : String) (h : i < row.length) :
    getParse row i msg =
      match parseF ((row[i]?).getD "") with
      | none => .error .parseError
      | some v => .ok v := by
  unfold getParse
  rw [List.getElem?_eq_getElem h]
  rfl

theorem getParse_missing {row : List String} {i : ℕ} (msg : String) (h : row.length ≤ i) :
    getParse row i msg = .error (.missingField msg) := by
  unfold getParse
  rw [List.getElem?_eq_none h]

theorem parseRow_congr {r1 r2 : List String}
    (h2 : r1[2]? = r2[2]?) (h3 : r1[3]? = r2[3]?) (h4 : r1[4]? = r2[4]?)
    (h6 : r1[6]? = r2[6]?) (h7 : r1[7]? = r2[7]?) (h8 : r1[8]? = r2[8]?) :
    parseRow r1 = parseRow r2 := by
  simp only [parseRow, getParse, h2, h3, h4, h6, h7, h8]

theorem parseRows_cons (row : List String) (rest : List (List String)) :
    parseRows (row :: rest) =
      match parseRow row with
      | .error e => .error e
      | .ok r =>
          match parseRows rest with
          | .error e => .error e
          | .ok rs => .ok (r :: rs) := rfl

theorem parseRows_append_ok {pre : List (List String)} {recs : List Record}
    (h : parseRows pre = .ok recs) (l : List (List String)) :
    parseRows (pre ++ l) =
      match parseRows l with
      | .error e => .error e
      | .ok rs => .ok (recs ++ rs) := by
  induction pre generalizing recs with
  | nil =>
      simp only [parseRows, Except.ok.injEq] at h
      subst h
      rw [List.nil_append]
      cases parseRows l <;> rfl
  | cons row rest ih =>
      rw [parseRows_cons] at h
      rw [List.cons_append, parseRows_cons]
      rcases hr : parseRow row with e | r
      · rw [hr] at h; exact absurd h (by simp)
      · rw [hr] at h
        rcases hrest : parseRows rest with e | rs
        · rw [hrest] at h; exact absurd h (by simp)
        · rw [hrest] at h
          simp only [Except.ok.injEq] at h
          subst h
          rw [ih hrest]
          cases parseRows l <;> simp

theorem parseRows_error_mem {rows : List (List String)} {row : List String}
    (hmem : row ∈ rows) {e : LoadError} (he : parseRow row = .error e) :
    ∃ e2, parseRows rows = .error e2 := by
  induction rows with
  | nil => simp at hmem
  | cons a rest ih =>
      rcases List.mem_cons.mp hmem with rfl | hmem2
      · exact ⟨e, by simp [parseRows, he]⟩
      · rcases ha : parseRow a with e3 | r
        · exact ⟨e3, by simp [parseRows, ha]⟩
        · obtain ⟨e2, h2⟩ := ih hmem2
          exact ⟨e2, by simp [parseRows, ha, h2]⟩

theorem readRows_cons (hl : ℕ) (row : List String) (rest : List (List String)) :
    readRows hl (row :: rest) =
      if row.length ≠ hl then .error .unequalLengths
      else
        match parseRow row with
        | .error e => .error (.load e)
        | .ok r =>
            match readRows hl rest with
            | .error e => .error e
            | .ok rs => .ok (r :: rs) := rfl

theorem readRows_ok_forall {hl : ℕ} :
    ∀ {rows : List (List String)} {l : List Record}, readRows hl rows = .ok l →
      ∀ row ∈ rows, row.length = hl ∧ ∃ r, parseRow row = .ok r := by
  intro rows
  induction rows with
  | nil => intro l _ row hrow; simp at hrow
  | cons a rest ih =>
      intro l h row hrow
      rw [readRows_cons] at h
      by_cases hw : a.length ≠ hl
      · rw [if_pos hw] at h; exact absurd h (by simp)
      · rw [if_neg hw] at h
        have hw2 : a.length = hl := not_not.mp hw
        rcases ha : parseRow a with e | r
        · rw [ha] at h; exact absurd h (by simp)
        · rw [ha] at h
          rcases hrest : readRows hl rest with e | rs
          · rw [hrest] at h; exact absurd h (by simp)
          · rcases List.mem_cons.mp hrow with rfl | h2
            · exact ⟨hw2, r, ha⟩
            · exact ih hrest row h2

theorem readRows_append_ok {hl : ℕ} {pre : List (List String)} {recs : List Record}
    (h : readRows hl pre = .ok recs) (l : List (List String)) :
    readRows hl (pre ++ l) =
      match readRows hl l with
      | .error e => .error e
      | .ok rs => .ok (recs ++ rs) := by
  induction pre generalizing recs with
  | nil =>
      simp only [readRows, Except.ok.injEq] at h
      subst h
      rw [List.nil_append]
      cases readRows hl l <;> rfl
  | cons row rest ih =>
      rw [readRows_cons] at h
      rw [List.cons_append, readRows_cons]
      by_cases hw : row.length ≠ hl
      · rw [if_pos hw] at h; exact absurd h (by simp)
      · rw [if_neg hw] at h
        rw [if_neg hw]
        rcases hr : parseRow row with e | r
        · rw [hr] at h; exact absurd h (by simp)
        · rw [hr] at h
          rcases hrest : readRows hl rest with e | rs
          · rw [hrest] at h; exact absurd h (by simp)
          · rw [hrest] at h
            simp only [Except.ok.injEq] at h
            subst h
            rw [ih hrest]
            cases readRows hl l <;> simp

theorem parseRow_short {row : List String} (h : row.length < 9) :
    ∃ e, parseRow row = .error e := by
  have h8 : getParse row 8 "Missing time_in_basecaller" =
      .error (.missingField "Missing time_in_basecaller") :=
    getParse_missing _ (by omega)
  simp only [parseRow]
  rcases g2 : getParse row 2 "Missing batch_time" with e | v2
  · exact ⟨e, by simp [g2, except_bind_error]⟩
  rcases g3 : getParse row 3 "Missing samples" with e | v3
  · exact ⟨e, by simp [g2, g3, except_bind_ok, except_bind_error]⟩
  rcases g4 : getParse row 4 "Missing bases" with e | v4
  · exact ⟨e, by simp [g2, g3, g4, except_bind_ok, except_bind_error]⟩
  rcases g6 : getParse row 6 "Missing mean_qscore" with e | v6
  · exact ⟨e, by simp [g2, g3, g4, g6, except_bind_ok, except_bind_error]⟩
  rcases g7 : getParse row 7 "Missing time_to_package_and_send" with e | v7
  · exact ⟨e, by simp [g2, g3, g4, g6, g7, except_bind_ok, except_bind_error]⟩
  exact ⟨.missingField "Missing time_in_basecaller",
    by simp [g2, g3, g4, g6, g7, h8, except_bind_ok, except_bind_error]⟩

theorem parseRow_short_missing {row : List String} (hlen : row.length < 9)
    (hp : ∀ i ∈ [2, 3, 4, 6, 7, 8], i < row.length → (parseF ((row[i]?).getD "")).isSome = true) :
    parseRow row = .error (.missingField (missingName row.length)) := by
  have hpres : ∀ (i : ℕ) (msg : String), i ∈ [2, 3, 4, 6, 7, 8] → i < row.length →
      ∃ v, getParse row i msg = .ok v := by
    intro i msg hi hlt
    rcases Option.isSome_iff_exists.mp (hp i hi hlt) with ⟨v, hv⟩
    refine ⟨v, ?_⟩
    rw [getParse_present msg hlt, hv]
  by_cases c2 : row.length ≤ 2
  · have hm : missingName row.length = "Missing batch_time" := by
      unfold missingName
      rw [if_pos c2]
    rw [hm]
    simp only [parseRow, getParse_missing _ c2, except_bind_error]
  · by_cases c3 : row.length ≤ 3
    · obtain ⟨v2, h2⟩ := hpres 2 "Missing batch_time" (by simp) (by omega)
      have hm : missingName row.length = "Missing samples" := by
        unfold missingName
        rw [if_neg (by omega), if_pos (by omega)]
      rw [hm]
      simp only [parseRow, h2, except_bind_ok, getParse_missing _ c3, except_bind_error]
    · by_cases c4 : row.length ≤ 4
      · obtain ⟨v2, h2⟩ := hpres 2 "Missing batch_time" (by simp) (by omega)
        obtain ⟨v3, h3⟩ := hpres 3 "Missing samples" (by simp) (by omega)
        have hm : missingName row.length = "Missing bases" := by
          unfold missingName
          rw [if_neg (by omega), if_neg (by omega), if_pos (by omega)]
        rw [hm]
        simp only [parseRow, h2, h3, except_bind_ok, getParse_missing _ c4, except_bind_error]
      · by_cases c6 : row.length ≤ 6
        · obtain ⟨v2, h2⟩ := hpres 2 "Missing batch_time" (by simp) (by omega)
          obtain ⟨v3, h3⟩ := hpres 3 "Missing samples" (by simp) (by omega)
          obtain ⟨v4, h4⟩ := hpres 4 "Missing bases" (by simp) (by omega)
          have hm : missingName row.length = "Missing mean_qscore" := by
            unfold missingName
            rw [if_neg (by omega), if_neg (by omega), if_neg (by omega), if_pos (by omega)]
          rw [hm]
          simp only [parseRow, h2, h3, h4, except_bind_ok, getParse_missing _ c6,
            except_bind_error]
        · by_cases c7 : row.length ≤ 7
          · obtain ⟨v2, h2⟩ := hpres 2 "Missing batch_time" (by simp) (by omega)
            obtain ⟨v3, h3⟩ := hpres 3 "Missing samples" (by simp) (by omega)
            obtain ⟨v4, h4⟩ := hpres 4 "Missing bases" (by simp) (by omega)
            obtain ⟨v6, h6⟩ := hpres 6 "Missing mean_qscore" (by simp) (by omega)
            have hm : missingName row.length = "Missing time_to_package_and_send" := by
              unfold missingName
              rw [if_neg (by omega), if_neg (by omega), if_neg (by omega), if_neg (by omega),
                if_pos (by omega)]
            rw [hm]
            simp only [parseRow, h2, h3, h4, h6, except_bind_ok, getParse_missing _ c7,
              except_bind_error]
          · obtain ⟨v2, h2⟩ := hpres 2 "Missing batch_time" (by simp) (by omega)
            obtain ⟨v3, h3⟩ := hpres 3 "Missing samples" (by simp) (by omega)
            obtain ⟨v4, h4⟩ := hpres 4 "Missing bases" (by simp) (by omega)
            obtain ⟨v6, h6⟩ := hpres 6 "Missing mean_qscore" (by simp) (by omega)
            obtain ⟨v7, h7⟩ := hpres 7 "Missing time_to_package_and_send" (by simp) (by omega)
            have c8 : row.length ≤ 8 := by omega
            have hm : missingName row.length = "Missing time_in_basecaller" := by
              unfold missingName
              rw [if_neg (by omega), if_neg (by omega), if_neg (by omega), if_neg (by omega),
                if_neg (by omega)]
            rw [hm]
            simp only [parseRow, h2, h3, h4, h6, h7, except_bind_ok, getParse_missing _ c8,
              except_bind_error]

theorem parseRow_parse_error {row : List String} {i : ℕ} (hi : i ∈ [2, 3, 4, 6, 7, 8])
    (hlt : i < row.length) (hbad : parseF ((row[i]?).getD "") = none) :
    parseRow row = .error .parseError := by
  have hbadgp : ∀ msg, getParse row i msg = .error .parseError := by
    intro msg
    rw [getParse_present msg hlt, hbad]
  have hpres : ∀ (j : ℕ) (msg : String), j < row.length →
      getParse row j msg = .error .parseError ∨ ∃ v, getParse row j msg = .ok v := by
    intro j msg hj
    rw [getParse_present msg hj]
    rcases parseF ((row[j]?).getD "") with _ | v
    · exact Or.inl rfl
    · exact Or.inr ⟨v, rfl⟩
  fin_cases hi
  · simp only [parseRow, hbadgp, except_bind_error]
  · rcases hpres 2 "Missing batch_time" (by omega) with h2 | ⟨v2, h2⟩
    · simp only [parseRow, h2, except_bind_error]
    · simp only [parseRow, h2, except_bind_ok, hbadgp, except_bind_error]
  · rcases hpres 2 "Missing batch_time" (by omega) with h2 | ⟨v2, h2⟩
    · simp only [parseRow, h2, except_bind_error]
    rcases hpres 3 "Missing samples" (by omega) with h3 | ⟨v3, h3⟩
    · simp only [parseRow, h2, h3, except_bind_ok, except_bind_error]
    · simp only [parseRow, h2, h3, except_bind_ok, hbadgp, except_bind_error]
  · rcases hpres 2 "Missing batch_time" (by omega) with h2 | ⟨v2, h2⟩
    · simp only [parseRow, h2, except_bind_error]
    rcases hpres 3 "Missing samples" (by omega) with h3 | ⟨v3, h3⟩
    · simp only [parseRow, h2, h3, except_bind_ok, except_bind_error]
    rcases hpres 4 "Missing bases" (by omega) with h4 | ⟨v4, h4⟩
    · simp only [parseRow, h2, h3, h4, except_bind_ok, except_bind_error]
    · simp only [parseRow, h2, h3, h4, except_bind_ok, hbadgp, except_bind_error]
  · rcases hpres 2 "Missing batch_time" (by omega) with h2 | ⟨v2, h2⟩
    · simp only [parseRow, h2, except_bind_error]
    rcases hpres 3 "Missing samples" (by omega) with h3 | ⟨v3, h3⟩
    · simp only [parseRow, h2, h3, except_bind_ok, except_bind_error]
    rcases hpres 4 "Missing bases" (by omega) with h4 | ⟨v4, h4⟩
    · simp only [parseRow, h2, h3, h4, except_bind_ok, except_bind_error]
    rcases hpres 6 "Missing mean_qscore" (by omega) with h6 | ⟨v6, h6⟩
    · simp only [parseRow, h2, h3, h4, h6, except_bind_ok, except_bind_error]
    · simp only [parseRow, h2, h3, h4, h6, except_bind_ok, hbadgp, except_bind_error]
  · rcases hpres 2 "Missing batch_time" (by omega) with h2 | ⟨v2, h2⟩
    · simp only [parseRow, h2, except_bind_error]
    rcases hpres 3 "Missing samples" (by omega) with h3 | ⟨v3, h3⟩
    · simp only [parseRow, h2, h3, except_bind_ok, except_bind_error]
    rcases hpres 4 "Missing bases" (by omega) with h4 | ⟨v4, h4⟩
    · simp only [parseRow, h2, h3, h4, except_bind_ok, except_bind_error]
    rcases hpres 6 "Missing mean_qscore" (by omega) with h6 | ⟨v6, h6⟩
    · simp only [parseRow, h2, h3, h4, h6, except_bind_ok, except_bind_error]
    rcases hpres 7 "Missing time_to_package_and_send" (by omega) with h7 | ⟨v7, h7⟩
    · simp only [parseRow, h2, h3, h4, h6, h7, except_bind_ok, except_bind_error]
    · simp only [parseRow, h2, h3, h4, h6, h7, except_bind_ok, hbadgp, except_bind_error]

/-! ### Properties of the renderer's bound computations -/

theorem F.eq_pinf_of_pinf_le {a : F} (h : F.le .pinf a = true) : a = .pinf := by
  cases a <;> simp_all [F.le, F.pcmp]

theorem F.eq_ninf_of_le_ninf {a : F} (h : F.le a .ninf = true) : a = .ninf := by
  cases a <;> simp_all [F.le, F.pcmp]

theorem foldl_fmin_spec :
    ∀ (l : List F) (a : F), a.isNan = false → (∀ v ∈ l, v.isNan = false) →
      (l.foldl F.fmin a = a ∨ l.foldl F.fmin a ∈ l) ∧
      F.le (l.foldl F.fmin a) a = true ∧
      ∀ v ∈ l, F.le (l.foldl F.fmin a) v = true := by
  intro l
  induction l with
  | nil =>
      intro a ha _
      exact ⟨Or.inl rfl, F.le_refl ha, by simp⟩
  | cons v vs ih =>
      intro a ha hl
      have hv : v.isNan = false := hl v (by simp)
      have hm : F.fmin a v = if F.le a v = true then a else v := by
        simp [F.fmin, ha, hv]
      have hmem : F.fmin a v = a ∨ F.fmin a v = v := by
        rw [hm]; split_ifs <;> simp
      have hnanm : (F.fmin a v).isNan = false := by
        rcases hmem with h | h <;> rw [h] <;> assumption
      have hlea : F.le (F.fmin a v) a = true := by
        rw [hm]
        split_ifs with hc
        · exact F.le_refl ha
        · rcases F.le_total ha hv with h | h
          · exact absurd h (by simp [hc])
          · exact h
      have hlev : F.le (F.fmin a v) v = true := by
        rw [hm]
        split_ifs with hc
        · exact hc
        · exact F.le_refl hv
      obtain ⟨rmem, rlea, rall⟩ :=
        ih (F.fmin a v) hnanm (fun w hw => hl w (by simp [hw]))
      rw [List.foldl_cons]
      refine ⟨?_, F.le_trans rlea hlea, ?_⟩
      · rcases rmem with h | h
        · rcases hmem with h2 | h2
          · exact Or.inl (h.trans h2)
          · exact Or.inr (by simp [h.trans h2])
        · exact Or.inr (by simp [h])
      · intro w hw
        rcases List.mem_cons.mp hw with rfl | hw2
        · exact F.le_trans rlea hlev
        · exact rall w hw2

theorem foldl_fmax_spec :
    ∀ (l : List F) (a : F), a.isNan = false → (∀ v ∈ l, v.isNan = false) →
      (l.foldl F.fmax a = a ∨ l.foldl F.fmax a ∈ l) ∧
      F.le a (l.foldl F.fmax a) = true ∧
      ∀ v ∈ l, F.le v (l.foldl F.fmax a) = true := by
  intro l
  induction l with
  | nil =>
      intro a ha _
      exact ⟨Or.inl rfl, F.le_refl ha, by simp⟩
  | cons v vs ih =>
      intro a ha hl
      have hv : v.isNan = false := hl v (by simp)
      have hm : F.fmax a v = if F.le v a = true then a else v := by
        simp [F.fmax, ha, hv]
      have hmem : F.fmax a v = a ∨ F.fmax a v = v := by
        rw [hm]; split_ifs <;> simp
      have hnanm : (F.fmax a v).isNan = false := by
        rcases hmem with h | h <;> rw [h] <;> assumption
      have hlea : F.le a (F.fmax a v) = true := by
        rw [hm]
        split_ifs with hc
        · exact F.le_refl ha
        · rcases F.le_total ha hv with h | h
          · exact h
          · exact absurd h (by simp [hc])
      have hlev : F.le v (F.fmax a v) = true := by
        rw [hm]
        split_ifs with hc
        · exact hc
        · exact F.le_refl hv
      obtain ⟨rmem, rlea, rall⟩ :=
        ih (F.fmax a v) hnanm (fun w hw => hl w (by simp [hw]))
      rw [List.foldl_cons]
      refine ⟨?_, F.le_trans hlea rlea, ?_⟩
      · rcases rmem with h | h
        · rcases hmem with h2 | h2
          · exact Or.inl (h.trans h2)
          · exact Or.inr (by simp [h.trans h2])
        · exact Or.inr (by simp [h])
      · intro w hw
        rcases List.mem_cons.mp hw with rfl | hw2
        · exact F.le_trans hlev rlea
        · exact rall w hw2

theorem minVal_isMin {g : Record → F} {data : List Record} (hne : data ≠ [])
    (hnn : ∀ r ∈ data, (g r).isNan = false) :
    isMinOf (minVal g data) (data.map g) = true := by
  obtain ⟨d, ds, rfl⟩ := List.exists_cons_of_ne_nil hne
  have hln : ∀ v ∈ (d :: ds).map g, v.isNan = false := by
    intro v hv
    obtain ⟨r, hr, rfl⟩ := List.mem_map.mp hv
    exact hnn r hr
  obtain ⟨hmem, _, hall⟩ := foldl_fmin_spec ((d :: ds).map g) F.pinf rfl hln
  have hcontains : minVal g (d :: ds) ∈ (d :: ds).map g := by
    rcases hmem with heq | hm
    · have h1 := hall (g d) (by simp)
      rw [heq] at h1
      have hgd : g d = F.pinf := F.eq_pinf_of_pinf_le h1
      show List.foldl F.fmin F.pinf (List.map g (d :: ds)) ∈ List.map g (d :: ds)
      rw [heq, ← hgd]
      simp
    · exact hm
  have hallle : ∀ v ∈ (d :: ds).map g, F.le (minVal g (d :: ds)) v = true := hall
  simp only [isMinOf, Bool.and_eq_true, List.any_eq_true, List.all_eq_true]
  exact ⟨⟨minVal g (d :: ds), hcontains, by simp⟩, fun v hv => hallle v hv⟩

theorem maxVal_isMax {g : Record → F} {data : List Record} (hne : data ≠ [])
    (hnn : ∀ r ∈ data, (g r).isNan = false) :
    isMaxOf (maxVal g data) (data.map g) = true := by
  obtain ⟨d, ds, rfl⟩ := List.exists_cons_of_ne_nil hne
  have hln : ∀ v ∈ (d :: ds).map g, v.isNan = false := by
    intro v hv
    obtain ⟨r, hr, rfl⟩ := List.mem_map.mp hv
    exact hnn r hr
  obtain ⟨hmem, _, hall⟩ := foldl_fmax_spec ((d :: ds).map g) F.ninf rfl hln
  have hcontains : maxVal g (d :: ds) ∈ (d :: ds).map g := by
    rcases hmem with heq | hm
    · have h1 := hall (g d) (by simp)
      rw [heq] at h1
      have hgd : g d = F.ninf := F.eq_ninf_of_le_ninf h1
      show List.foldl F.fmax F.ninf (List.map g (d :: ds)) ∈ List.map g (d :: ds)
      rw [heq, ← hgd]
      simp
    · exact hm
  simp only [isMaxOf, Bool.and_eq_true, List.any_eq_true, List.all_eq_true]
  exact ⟨⟨maxVal g (d :: ds), hcontains, by simp⟩, fun v hv => hall v hv⟩

theorem sorted_le_getLast {α : Type} {k : α → F} :
    ∀ {l : List α} (hne : l ≠ []), sortedKeyB k l = true →
      (∀ x ∈ l, (k x).isNan = false) →
      ∀ x ∈ l, F.le (k x) (k (l.getLast hne)) = true := by
  intro l
  induction l with
  | nil => intro hne; exact absurd rfl hne
  | cons a t ih =>
      intro hne hs hnn x hx
      cases t with
      | nil =>
          have hxa : x = a := by simpa using hx
          subst hxa
          exact F.le_refl (hnn x (by simp))
      | cons b u =>
          have hpair : F.le (k a) (k b) = true ∧ sortedKeyB k (b :: u) = true := by
            simpa [sortedKeyB, Bool.and_eq_true] using hs
          have hlast : (a :: b :: u).getLast hne = (b :: u).getLast (by simp) :=
            List.getLast_cons (by simp)
          rw [hlast]
          have hnn2 : ∀ y ∈ b :: u, (k y).isNan = false :=
            fun y hy => hnn y (List.mem_cons_of_mem a hy)
          rcases List.mem_cons.mp hx with rfl | hx2
          · exact F.le_trans hpair.1 (ih (by simp) hpair.2 hnn2 b (by simp))
          · exact ih (by simp) hpair.2 hnn2 x hx2

theorem panelAxes_cons (g : Record → F) (d : Record) (ds : List Record) :
    panelAxes g (d :: ds) =
      .ok ⟨d.time, ((d :: ds).getLast (by simp)).time, minVal g (d :: ds), maxVal g (d :: ds)⟩ := by
  unfold panelAxes firstTime lastTime
  rw [List.head?_cons, List.getLast?_eq_getLast (d :: ds) (by simp)]

theorem mapE_ok_of_all {α β ε : Type} {g : α → Except ε β} {h : α → β} :
    ∀ {l : List α}, (∀ a ∈ l, g a = .ok (h a)) → mapE g l = .ok (l.map h) := by
  intro l
  induction l with
  | nil => intro _; rfl
  | cons a as2 ih =>
      intro hall
      simp only [mapE, hall a (by simp), ih (fun x hx => hall x (by simp [hx])), List.map_cons]

/-! ### Remaining helper lemmas -/

theorem except_pure {ε α : Type} (a : α) : (pure a : Except ε α) = .ok a := rfl

theorem getParse_ok_parseF {row : List String} {i : ℕ} {msg : String} {v : F}
    (h : getParse row i msg = .ok v) : parseF ((row[i]?).getD "") = some v := by
  unfold getParse at h
  rcases hg : row[i]? with _ | s
  · rw [hg] at h; exact absurd h (by simp)
  · rw [hg] at h
    have h2 : (match parseF s with
        | none => (Except.error LoadError.parseError : Except LoadError F)
        | some w => Except.ok w) = Except.ok v := h
    rcases hp : parseF s with _ | w
    · rw [hp] at h2; exact absurd h2 (by simp)
    · rw [hp] at h2
      simp only [Except.ok.injEq] at h2
      subst h2
      simpa [hg] using hp

theorem fields_comp_no_nan {f : String × (Record → F)} (hf : f ∈ fields) {r : Record}
    (hr : recNoNan r = true) : (f.2 r).isNan = false := by
  have h6 : r.time.isNan = false ∧ r.samples.isNan = false ∧ r.bases.isNan = false ∧
      r.mean_qscore.isNan = false ∧ r.time_to_package_and_send.isNan = false ∧
      r.time_in_basecaller.isNan = false := by
    simp only [recNoNan, Bool.and_eq_true, Bool.not_eq_true'] at hr
    tauto
  simp only [fields] at hf
  fin_cases hf
  · exact h6.2.1
  · exact h6.2.2.1
  · exact h6.2.2.2.1
  · exact h6.2.2.2.2.1
  · exact h6.2.2.2.2.2

theorem recNoNan_time {r : Record} (hr : recNoNan r = true) : r.time.isNan = false := by
  simp only [recNoNan, Bool.and_eq_true, Bool.not_eq_true'] at hr
  tauto

theorem parse_csv_eq_sort {rows : List (List String)} {recs : List Record}
    (hp : parseRows rows = .ok recs) : parse_csv rows = sort_by Record.time recs := by
  unfold parse_csv
  rw [hp]

/-! ### The claims -/

/-- C1: after loading, the record sequence returned by the CSV loader is
sorted ascending by `time` (adjacent pairs satisfy `time[i] <= time[i+1]`),
and records with equal time values keep their original file order: for every
time value, filtering the output by that time gives exactly the same
subsequence as filtering the records parsed in file order. -/
theorem C1_loader_sorted_stable (rows : List (List String)) (recs l : List Record)
    (hp : parseRows rows = .ok recs) (h : parse_csv rows = .ok l) :
    sortedByTimeB l = true ∧
      ∀ t : F, l.filter (fun r => decide (r.time = t)) =
        recs.filter (fun r => decide (r.time = t)) := by
  rw [parse_csv_eq_sort hp] at h
  obtain ⟨h1, _, h3⟩ := sort_by_ok h
  exact ⟨h1, h3⟩

/-- Witness for C1 at the spec's end-to-end dataset (times 10, 5, 20). -/
theorem C1_witness :
    sortedByTimeB recsSorted = true ∧
      ∀ t : F, recsSorted.filter (fun r => decide (r.time = t)) =
        recsEndToEnd.filter (fun r => decide (r.time = t)) :=
  C1_loader_sorted_stable rowsEndToEnd recsEndToEnd recsSorted (by decide) (by decide)

/-- C9: the loader's output is a permutation of the records parsed from the
data rows in file order — sorting neither drops, duplicates nor mutates any
record. -/
theorem C9_loader_permutation (rows : List (List String)) (recs l : List Record)
    (hp : parseRows rows = .ok recs) (h : parse_csv rows = .ok l) :
    l.Perm recs := by
  rw [parse_csv_eq_sort hp] at h
  exact (sort_by_ok h).2.1

/-- Witness for C9 on a two-row dataset with times 7 and 2. -/
theorem C9_witness :
    ([sampleRec (F.fin 2) (F.fin 2), sampleRec (F.fin 7) (F.fin 1)] : List Record).Perm
      [sampleRec (F.fin 7) (F.fin 1), sampleRec (F.fin 2) (F.fin 2)] :=
  C9_loader_permutation rowsPair
    [sampleRec (F.fin 7) (F.fin 1), sampleRec (F.fin 2) (F.fin 2)]
    [sampleRec (F.fin 2) (F.fin 2), sampleRec (F.fin 7) (F.fin 1)]
    (by decide) (by decide)

/-- C4 counterexample: a dataset whose single record has NaN time loads
successfully and silently — the sort performs no comparison on fewer than
two elements, so nothing aborts, contradicting the claim as stated. -/
theorem C4_nan_counterexample :
    parse_csv rowsNanSingle =
      .ok [⟨F.nan, F.fin 7, F.fin 8, F.fin 9, F.fin 10, F.fin 11⟩] := by decide

/-- C4 (amended): if the parsed dataset has at least two records and any
record's time is NaN, the sort's comparator panics, aborting the load. -/
theorem C4_nan_sort_aborts (rows : List (List String)) (recs : List Record)
    (hp : parseRows rows = .ok recs) (hlen : 2 ≤ recs.length)
    (hnan : ∃ r ∈ recs, r.time = F.nan) :
    parse_csv rows = .error .sortPanic := by
  rw [parse_csv_eq_sort hp]
  rcases h : sort_by Record.time recs with e | s
  · rw [sort_by_error h]
  · exfalso
    obtain ⟨h1, h2, _⟩ := sort_by_ok h
    obtain ⟨r, hr, hrt⟩ := hnan
    have hrs : r ∈ s := h2.mem_iff.mpr hr
    have hlen2 : 2 ≤ s.length := by rw [h2.length_eq]; exact hlen
    have hno := sortedKey_no_nan h1 hlen2 r hrs
    rw [hrt] at hno
    simp [F.isNan] at hno

/-- Witness for C4 on a two-row dataset whose first time is NaN. -/
theorem C4_witness : parse_csv rowsNanPair = .error .sortPanic :=
  C4_nan_sort_aborts rowsNanPair
    [sampleRec F.nan (F.fin 1), sampleRec (F.fin 2) (F.fin 1)]
    (by decide) (by decide) (by decide)

/-- C3: on an empty record sequence the renderer's axis computation panics
at `data.first().unwrap()` — the embedded code has no `EmptyDataset` error
path at all, so the claimed explicit error does not exist. -/
theorem C3_empty_input_panics : plotAxes [] = .error .unwrapNone := by decide

/-- C2 counterexample: for a non-empty record sequence that is not sorted by
time (times 5 then 3), every panel's x low bound is the first record's time
(5), which is not the minimum time — so the claim is false as stated for
arbitrary sequences passed to the renderer. -/
theorem C2_axis_counterexample :
    (Except.map (fun axes => axes.map Axes.xlo) (plotAxes unsortedData) =
      .ok [F.fin 5, F.fin 5, F.fin 5, F.fin 5, F.fin 5]) ∧
    isMinOf (F.fin 5) (unsortedData.map Record.time) = false := by decide

/-- C2 (amended): the renderer takes the x range from the first and last
records, which equal the global minimum and maximum time exactly when the
sequence is sorted ascending by time, as every loader-produced sequence is;
the y range of each panel is the min/max of that panel's field over all
records (values assumed non-NaN so that min/max are defined). -/
theorem C2_axis_bounds (data : List Record) (hne : data ≠ [])
    (hs : sortedByTimeB data = true) (hnn : data.all recNoNan = true) :
    ∃ xlo xhi : F,
      plotAxes data =
        .ok (fields.map fun f => ⟨xlo, xhi, minVal f.2 data, maxVal f.2 data⟩) ∧
      isMinOf xlo (data.map Record.time) = true ∧
      isMaxOf xhi (data.map Record.time) = true ∧
      ∀ f ∈ fields, isMinOf (minVal f.2 data) (data.map f.2) = true ∧
        isMaxOf (maxVal f.2 data) (data.map f.2) = true := by
  have hnnr : ∀ r ∈ data, recNoNan r = true := by
    intro r hr
    exact List.all_eq_true.mp hnn r hr
  have htime : ∀ r ∈ data, r.time.isNan = false :=
    fun r hr => recNoNan_time (hnnr r hr)
  obtain ⟨d, ds, rfl⟩ := List.exists_cons_of_ne_nil hne
  have hsk : sortedKeyB Record.time (d :: ds) = true := hs
  refine ⟨d.time, ((d :: ds).getLast (by simp)).time, ?_, ?_, ?_, ?_⟩
  · exact mapE_ok_of_all (fun f _ => panelAxes_cons f.2 d ds)
  · simp only [isMinOf, Bool.and_eq_true, List.any_eq_true, List.all_eq_true]
    constructor
    · exact ⟨d.time, by simp, by simp⟩
    · intro w hw
      obtain ⟨r, hr, rfl⟩ := List.mem_map.mp hw
      rcases List.mem_cons.mp hr with rfl | hr2
      · exact F.le_refl (htime r (by simp))
      · exact sorted_head_le_all hsk r hr2
  · simp only [isMaxOf, Bool.and_eq_true, List.any_eq_true, List.all_eq_true]
    constructor
    · exact ⟨((d :: ds).getLast (by simp)).time,
        List.mem_map.mpr ⟨(d :: ds).getLast (by simp), List.getLast_mem _, rfl⟩, by simp⟩
    · intro w hw
      obtain ⟨r, hr, rfl⟩ := List.mem_map.mp hw
      exact sorted_le_getLast (k := Record.time) (by simp) hsk htime r hr
  · intro f hf
    have hcomp : ∀ r ∈ d :: ds, (f.2 r).isNan = false :=
      fun r hr => fields_comp_no_nan hf (hnnr r hr)
    exact ⟨minVal_isMin (by simp) hcomp, maxVal_isMax (by simp) hcomp⟩

/-- Witness for C2 at a sorted two-record dataset (times 3 and 5). -/
theorem C2_witness :
    ∃ xlo xhi : F,
      plotAxes sortedData =
        .ok (fields.map fun f => ⟨xlo, xhi, minVal f.2 sortedData, maxVal f.2 sortedData⟩) ∧
      isMinOf xlo (sortedData.map Record.time) = true ∧
      isMaxOf xhi (sortedData.map Record.time) = true ∧
      ∀ f ∈ fields, isMinOf (minVal f.2 sortedData) (sortedData.map f.2) = true ∧
        isMaxOf (maxVal f.2 sortedData) (sortedData.map f.2) = true :=
  C2_axis_bounds sortedData (by decide) (by decide) (by decide)

/-- C5: for a data row with at least 9 columns, the loader builds the record
positionally — column 2 is time, 3 samples, 4 bases, 6 mean_qscore,
7 time_to_package_and_send, 8 time_in_basecaller — and the contents of
columns 0, 1 and 5 are never consumed (overwriting them cannot change the
outcome). -/
theorem C5_field_mapping (row : List String) (h9 : 9 ≤ row.length) :
    (∀ r : Record, parseRow row = .ok r →
      parseF ((row[2]?).getD "") = some r.time ∧
      parseF ((row[3]?).getD "") = some r.samples ∧
      parseF ((row[4]?).getD "") = some r.bases ∧
      parseF ((row[6]?).getD "") = some r.mean_qscore ∧
      parseF ((row[7]?).getD "") = some r.time_to_package_and_send ∧
      parseF ((row[8]?).getD "") = some r.time_in_basecaller) ∧
    ∀ a b c : String, parseRow (((row.set 0 a).set 1 b).set 5 c) = parseRow row := by
  constructor
  · intro r h
    simp only [parseRow] at h
    rcases g2 : getParse row 2 "Missing batch_time" with e | v2 <;>
      simp only [g2, except_bind_error, except_bind_ok] at h
    · exact absurd h (by simp)
    rcases g3 : getParse row 3 "Missing samples" with e | v3 <;>
      simp only [g3, except_bind_error, except_bind_ok] at h
    · exact absurd h (by simp)
    rcases g4 : getParse row 4 "Missing bases" with e | v4 <;>
      simp only [g4, except_bind_error, except_bind_ok] at h
    · exact absurd h (by simp)
    rcases g6 : getParse row 6 "Missing mean_qscore" with e | v6 <;>
      simp only [g6, except_bind_error, except_bind_ok] at h
    · exact absurd h (by simp)
    rcases g7 : getParse row 7 "Missing time_to_package_and_send" with e | v7 <;>
      simp only [g7, except_bind_error, except_bind_ok] at h
    · exact absurd h (by simp)
    rcases g8 : getParse row 8 "Missing time_in_basecaller" with e | v8 <;>
      simp only [g8, except_bind_error, except_bind_ok, except_pure, Except.ok.injEq] at h
    · exact absurd h (by simp)
    subst h
    exact ⟨getParse_ok_parseF g2, getParse_ok_parseF g3, getParse_ok_parseF g4,
      getParse_ok_parseF g6, getParse_ok_parseF g7, getParse_ok_parseF g8⟩
  · intro a b c
    apply parseRow_congr <;> simp

/-- Witness for C5 at the spec's field-mapping row. -/
theorem C5_witness :
    (∀ r : Record, parseRow specRow5 = .ok r →
      parseF ((specRow5[2]?).getD "") = some r.time ∧
      parseF ((specRow5[3]?).getD "") = some r.samples ∧
      parseF ((specRow5[4]?).getD "") = some r.bases ∧
      parseF ((specRow5[6]?).getD "") = some r.mean_qscore ∧
      parseF ((specRow5[7]?).getD "") = some r.time_to_package_and_send ∧
      parseF ((specRow5[8]?).getD "") = some r.time_in_basecaller) ∧
    ∀ a b c : String, parseRow (((specRow5.set 0 a).set 1 b).set 5 c) = parseRow specRow5 :=
  C5_field_mapping specRow5 (by decide)

/-- C10: two rows of equal length that agree on the consumed columns
2, 3, 4, 6, 7, 8 parse identically — the contents of the ignored columns
cannot influence the outcome (success or failure) or any field value. -/
theorem C10_ignored_columns (r1 r2 : List String) (hlen : r1.length = r2.length)
    (h2 : r1[2]? = r2[2]?) (h3 : r1[3]? = r2[3]?) (h4 : r1[4]? = r2[4]?)
    (h6 : r1[6]? = r2[6]?) (h7 : r1[7]? = r2[7]?) (h8 : r1[8]? = r2[8]?) :
    parseRow r1 = parseRow r2 :=
  parseRow_congr h2 h3 h4 h6 h7 h8

/-- Witness for C10: two rows differing in columns 0, 1, 5 and 9. -/
theorem C10_witness :
    parseRow ["a", "b", "1", "2", "3", "c", "4", "5", "6", "x"] =
      parseRow ["A", "B", "1", "2", "3", "C", "4", "5", "6", "y"] :=
  C10_ignored_columns ["a", "b", "1", "2", "3", "c", "4", "5", "6", "x"]
    ["A", "B", "1", "2", "3", "C", "4", "5", "6", "y"]
    (by decide) (by decide) (by decide) (by decide) (by decide) (by decide) (by decide)

/-- C6 counterexample: a row with 8 columns (fewer than 9) never produces a
`MissingField` error.  In a file whose header has 9 fields, the csv reader
itself rejects the width-deviant row (`UnequalLengths`) before any field is
accessed; and even in a uniformly 8-column file, where the row is delivered,
an unparseable time column makes the loader fail with `ParseError` first. -/
theorem C6_short_counterexample :
    rowShortBad.length < 9 ∧
    parse_csv_file 9 [rowShortBad] = .error .unequalLengths ∧
    (∀ msg, parse_csv_file 9 [rowShortBad] ≠ .error (.load (.missingField msg))) ∧
    parse_csv_file 8 [rowShortBad] = .error (.load .parseError) ∧
    (∀ msg, parse_csv_file 8 [rowShortBad] ≠ .error (.load (.missingField msg))) := by
  refine ⟨by decide, by decide, ?_, by decide, ?_⟩
  · intro msg h
    rw [(by decide : parse_csv_file 9 [rowShortBad] = .error .unequalLengths)] at h
    simp at h
  · intro msg h
    rw [(by decide : parse_csv_file 8 [rowShortBad] = .error (.load .parseError))] at h
    simp at h

/-- C6 (amended): a data row with fewer than 9 columns always aborts the
whole load — no partial dataset is ever returned.  Which error surfaces
depends on the reader: a row whose width differs from the header's is
rejected by the csv reader itself (`UnequalLengths`) before any field
access; the `MissingField` message naming the first absent consumed column
arises exactly when the short row matches the header's width (a uniformly
narrow file), its present consumed columns parse as floats, and no earlier
row fails first. -/
theorem C6_short_row_aborts (headerLen : ℕ) (rows : List (List String))
    (hshort : ∃ row ∈ rows, row.length < 9) :
    (∀ l, parse_csv_file headerLen rows ≠ .ok l) ∧
    (∀ pre row rest recs, rows = pre ++ row :: rest →
      readRows headerLen pre = .ok recs → row.length < 9 → row.length = headerLen →
      (∀ i ∈ [2, 3, 4, 6, 7, 8], i < row.length → (parseF ((row[i]?).getD "")).isSome = true) →
      parse_csv_file headerLen rows =
        .error (.load (.missingField (missingName row.length)))) ∧
    (∀ pre row rest recs, rows = pre ++ row :: rest →
      readRows headerLen pre = .ok recs → row.length ≠ headerLen →
      parse_csv_file headerLen rows = .error .unequalLengths) := by
  refine ⟨?_, ?_, ?_⟩
  · intro l hok
    obtain ⟨row, hmem, hlt⟩ := hshort
    unfold parse_csv_file at hok
    rcases hr : readRows headerLen rows with e | data
    · rw [hr] at hok; exact absurd hok (by simp)
    · obtain ⟨_, r, hokrow⟩ := readRows_ok_forall hr row hmem
      obtain ⟨e, he⟩ := parseRow_short hlt
      rw [he] at hokrow
      exact absurd hokrow (by simp)
  · intro pre row rest recs hrows hpre hlen hw hp
    subst hrows
    have hrow := parseRow_short_missing hlen hp
    have hcons : readRows headerLen (row :: rest) =
        .error (.load (.missingField (missingName row.length))) := by
      rw [readRows_cons, if_neg (not_not.mpr hw), hrow]
    have happ := readRows_append_ok hpre (row :: rest)
    rw [hcons] at happ
    unfold parse_csv_file
    rw [happ]
  · intro pre row rest recs hrows hpre hw
    subst hrows
    have hcons : readRows headerLen (row :: rest) = .error .unequalLengths := by
      rw [readRows_cons, if_pos hw]
    have happ := readRows_append_ok hpre (row :: rest)
    rw [hcons] at happ
    unfold parse_csv_file
    rw [happ]

/-- Witness for C6 at a uniformly 5-column file with one data row. -/
theorem C6_witness :
    (∀ l, parse_csv_file 5 rowsShort ≠ .ok l) ∧
    (∀ pre row rest recs, rowsShort = pre ++ row :: rest →
      readRows 5 pre = .ok recs → row.length < 9 → row.length = 5 →
      (∀ i ∈ [2, 3, 4, 6, 7, 8], i < row.length → (parseF ((row[i]?).getD "")).isSome = true) →
      parse_csv_file 5 rowsShort =
        .error (.load (.missingField (missingName row.length)))) ∧
    (∀ pre row rest recs, rowsShort = pre ++ row :: rest →
      readRows 5 pre = .ok recs → row.length ≠ 5 →
      parse_csv_file 5 rowsShort = .error .unequalLengths) :=
  C6_short_row_aborts 5 rowsShort (by decide)

/-- C7 counterexample: `NaN` and `inf` are accepted by float parsing, so a
row with a NaN time and an infinite samples value loads successfully —
consumed values are not required to be finite, and time may be NaN. -/
theorem C7_nonfinite_counterexample :
    parse_csv rowsNonFinite =
      .ok [⟨F.nan, F.pinf, F.fin 2, F.fin 3, F.fin 4, F.fin 5⟩] := by decide

/-- C7 (amended): whenever a consumed column value that is present in its
row cannot be interpreted as a floating-point number and every earlier row
parses, the loader fails with `ParseError`; but `inf` and `NaN` do parse as
floats and are accepted. -/
theorem C7_parse_error (pre : List (List String)) (row : List String)
    (rest : List (List String)) (recs : List Record) (hpre : parseRows pre = .ok recs)
    (i : ℕ) (hi : i ∈ [2, 3, 4, 6, 7, 8]) (hlt : i < row.length)
    (hbad : parseF ((row[i]?).getD "") = none) :
    parse_csv (pre ++ row :: rest) = .error .parseError := by
  have hrow := parseRow_parse_error hi hlt hbad
  have hcons : parseRows (row :: rest) = .error .parseError := by
    rw [parseRows_cons, hrow]
  have happ := parseRows_append_ok hpre (row :: rest)
  rw [hcons] at happ
  unfold parse_csv
  rw [happ]

/-- Witness for C7 at a row whose time column is `abc`. -/
theorem C7_witness : parse_csv rowsBadCol = .error .parseError :=
  C7_parse_error [] ["x", "y", "abc", "1", "2", "q", "3", "4", "5"] [] []
    rfl 2 (by decide) (by decide) (by decide)

/-- C8: with any argument count other than 3 (program name plus exactly two
positional arguments), the entry point prints the usage line to the error
stream and exits with code 1; the pipeline (loader then renderer) is never
entered. -/
theorem C8_usage_exit (args : List String) (h : args.length ≠ 3) :
    mainArgs args = .usageExit ("Usage: " ++ args.headD "" ++ " <input_csv> <output_png>") 1 ∧
    ∀ i o, mainArgs args ≠ .runPipeline i o := by
  unfold mainArgs
  rw [if_pos h]
  exact ⟨rfl, fun i o hc => CliOutcome.noConfusion hc⟩

/-- Witness for C8 at an argv with no positional arguments. -/
theorem C8_witness :
    mainArgs ["prog"] =
      .usageExit ("Usage: " ++ (["prog"] : List String).headD "" ++ " <input_csv> <output_png>") 1 ∧
    ∀ i o, mainArgs ["prog"] ≠ .runPipeline i o :=
  C8_usage_exit ["prog"] (by decide)

end OntAs
